import Mathlib

/-!
A shallow embedding of the QOI codec from `qoi.py` (ShampooDeng/qoi-python),
together with proofs about its specification.

Conventions of the embedding:
* A byte stream is a `List Nat` whose elements are byte values.
  Reading one byte from a file object `f` is modelled by `headByte` / `List.tail`:
  Python's `int.from_bytes(f.read(1), 'big')` yields `0` when the stream is
  exhausted (`f.read(1) = b''`), which `List.headD 0` reproduces exactly.
* numpy `uint8` pixel values are `Nat`s; the `astype(np.uint8)` cast after the
  (arbitrary-precision) additions in `decode_diff` / `decode_luma` is the
  explicit `% 256` in `addWrap`.
* Python `mask & x` on a (possibly negative) `int` with `mask = 2^k - 1`
  equals `x % 2^k` with a nonnegative remainder, which is Lean's `Int.emod`;
  bitwise or of disjoint bit ranges is written as `+` of the shifted fields.
* `qoi_decode`'s failure modes are made explicit in `DecodeResult`:
  `pyNone` is Python's `return None` (input path is not a file),
  `QoiError.structError` is the `struct.error` raised by
  `QOI_HEADER.unpack` on a buffer shorter than 14 bytes, and
  `QoiError.formatError` is the `AssertionError` raised by
  `Qoi_header.read_buffer` when the magic does not match.  The remaining
  error names come from the specification document; this implementation
  never produces them, which several theorems below make precise.
* The `assert` range checks in the `pack_qoi_op_*` functions are modelled as
  hypotheses of the theorems that use them; the packing functions themselves
  are total.
* Default arguments of the Python functions (`channel_num=3`, `colorspace=1`,
  `a=255`) are passed explicitly at each call site.
-/

/-- An RGB pixel: a triple of `uint8` channel values. -/
structure Pixel where
  r : Nat
  g : Nat
  b : Nat
deriving DecidableEq

/-- Tag byte of a QOI_OP_RGB chunk (`QOI_TAG_RGB = 0xfe`). -/
def QOI_TAG_RGB : Nat := 0xfe

/-- Tag byte of a QOI_OP_RGBA chunk (`QOI_TAG_RGBA = 0xff`). -/
def QOI_TAG_RGBA : Nat := 0xff

/-- Two-bit tag of a QOI_OP_INDEX chunk (`QOI_TAG_INDEX = 0x00`). -/
def QOI_TAG_INDEX : Nat := 0x00

/-- Two-bit tag of a QOI_OP_DIFF chunk (`QOI_TAG_DIFF = 0x40`). -/
def QOI_TAG_DIFF : Nat := 0x40

/-- Two-bit tag of a QOI_OP_LUMA chunk (`QOI_TAG_LUMA = 0x80`). -/
def QOI_TAG_LUMA : Nat := 0x80

/-- Two-bit tag of a QOI_OP_RUN chunk (`QOI_TAG_RUN = 0xc0`). -/
def QOI_TAG_RUN : Nat := 0xc0

/-- The magic bytes `b'qoif'`. -/
def QOI_MAGIC : List Nat := [0x71, 0x6f, 0x69, 0x66]

/-- `END_MARKER = QOI_ENDER.pack(0, 0, 0, 0, 0, 0, 0, 1)`. -/
def END_MARKER : List Nat := [0, 0, 0, 0, 0, 0, 0, 1]

/-- Big-endian encoding of a `u32` field (`struct` format `>I`).
`struct.pack` would raise for values `≥ 2^32`; the encoder theorems carry
that bound as a hypothesis. -/
def be32 (n : Nat) : List Nat :=
  [n / 16777216 % 256, n / 65536 % 256, n / 256 % 256, n % 256]

/-- `pack_qoi_header(width, height, channel_num=3, colorspace=1)`:
`QOI_HEADER.pack(b'qoif', width, height, channel_num, colorspace)`
with format `>4sIIBB`. -/
def pack_qoi_header (width height channel_num colorspace : Nat) : List Nat :=
  QOI_MAGIC ++ be32 width ++ be32 height ++ [channel_num, colorspace]

/-- `pack_qoi_op_rgb(red_val, green_val, blue_val)`: tag byte `0xfe`
followed by the three raw channel bytes (`struct` format `>BBBB`). -/
def pack_qoi_op_rgb (red_val green_val blue_val : Nat) : List Nat :=
  [0xfe, red_val, green_val, blue_val]

/-- `pack_qoi_op_rgba(...)`: tag byte `255` followed by four raw channel
bytes.  Present in the source but never called by the encoder. -/
def pack_qoi_op_rgba (red_val green_val blue_val alpha_val : Nat) : List Nat :=
  [255, red_val, green_val, blue_val, alpha_val]

/-- `pack_qoi_op_index(index)`: the single byte `index` (two-bit tag `00`
plus the six-bit slot).  The Python `assert 0 <= index <= 63` is carried as a
hypothesis where needed. -/
def pack_qoi_op_index (index : Nat) : List Nat :=
  [index]

/-- `pack_qoi_op_diff(dr, dg, db)`:
`0x40 | ((3 & dr) << 4) | ((3 & dg) << 2) | (3 & db)` as one byte.
`3 & d` on a Python `int` is `d % 4` (nonnegative remainder), and the three
shifted two-bit fields occupy disjoint bit ranges, so the bitwise ors are
written as sums. -/
def pack_qoi_op_diff (dr dg db : Int) : List Nat :=
  [0x40 + (dr % 4).toNat * 16 + (dg % 4).toNat * 4 + (db % 4).toNat]

/-- `pack_qoi_op_luma(drg, dg, dbg)`:
byte 1 is `0x80 | (0x3f & dg)`, byte 2 is `((0xf & drg) << 4) | (0xf & dbg)`;
again `mask & d` is the nonnegative remainder and the ors combine disjoint
bit fields. -/
def pack_qoi_op_luma (drg dg dbg : Int) : List Nat :=
  [0x80 + (dg % 64).toNat, (drg % 16).toNat * 16 + (dbg % 16).toNat]

/-- `pack_qoi_op_run(run_length)`: `0xc0 | (run_length - 1)` as one byte.
The Python `assert 0 < run_length < 63` is carried as a hypothesis where
needed (for in-range lengths the or is a sum of disjoint fields). -/
def pack_qoi_op_run (run_length : Nat) : List Nat :=
  [0xc0 + (run_length - 1)]

/-- `qoi_color_hash(r, g, b, a=255) = (r*3 + g*5 + b*7 + a*11) % 64`. -/
def qoi_color_hash (r g b a : Nat) : Nat :=
  (r * 3 + g * 5 + b * 7 + a * 11) % 64

/-- Reading the 64-entry `index_table` (a numpy array of pixels); every
access in the source uses an index `< 64`, so the default is never hit for
the tables the codec builds. -/
def cacheGet (index_table : List Pixel) (i : Nat) : Pixel :=
  index_table.getD i ⟨0, 0, 0⟩

/-- The fresh all-zero `index_table = np.zeros((64, 3), dtype=np.uint8)`. -/
def zeroCache : List Pixel := List.replicate 64 ⟨0, 0, 0⟩

/-- `int.from_bytes(f.read(1), 'big')`: the next byte of the stream, or `0`
if the stream is exhausted. -/
def headByte (f : List Nat) : Nat := f.headD 0

/-- `read_sign_byte(byte, bit)` for a field value `byte` already masked to
`bit` bits.  `~byte & mask` in Python is `(-byte - 1) % 2^bit`; the function
returns `None` for a `bit` argument other than 2, 4, 6 (never the case in
the source, whose call sites pass literals). -/
def read_sign_byte (byte : Nat) (bit : Nat) : Option Int :=
  if bit = 2 then
    some (if (byte &&& 0x02) >>> 1 = 1 then -1 - ((-(byte : Int) - 1) % 4) else (byte : Int))
  else if bit = 4 then
    some (if (byte &&& 0x08) >>> 3 = 1 then -1 - ((-(byte : Int) - 1) % 16) else (byte : Int))
  else if bit = 6 then
    some (if (byte &&& 0x20) >>> 5 = 1 then -1 - ((-(byte : Int) - 1) % 64) else (byte : Int))
  else
    none

/-- Per-channel pixel arithmetic of the decoder: numpy computes
`px + delta` in a wide integer type and `astype(np.uint8)` reduces mod 256. -/
def addWrap (a : Nat) (d : Int) : Nat :=
  (((a : Int) + d) % 256).toNat

/-- `decode_rgb(f, index_table)`: reads three bytes, builds the pixel,
stores it in the `index_table` at its hash slot.  Returns the pixel, the
updated table, and the rest of the stream (the advanced file object). -/
def decode_rgb (f : List Nat) (index_table : List Pixel) :
    Pixel × List Pixel × List Nat :=
  let r := headByte f
  let g := headByte f.tail
  let b := headByte f.tail.tail
  let px : Pixel := ⟨r, g, b⟩
  let index_pos := qoi_color_hash r g b 255
  (px, index_table.set index_pos px, f.tail.tail.tail)

/-- `decode_diff(buffer, px)`: extracts the three two-bit fields, undoes the
sign packing with `read_sign_byte(·, 2)`, and adds with wraparound.  The
`getD 0` is unreachable: `read_sign_byte` is `some` for the literal bit
width 2. -/
def decode_diff (buffer : Nat) (px : Pixel) : Pixel :=
  let dr := (read_sign_byte ((buffer &&& 0x30) >>> 4) 2).getD 0
  let dg := (read_sign_byte ((buffer &&& 0x0c) >>> 2) 2).getD 0
  let db := (read_sign_byte (buffer &&& 0x03) 2).getD 0
  ⟨addWrap px.r dr, addWrap px.g dg, addWrap px.b db⟩

/-- `decode_luma(f, buffer, px)`: six-bit green difference from the tag
byte, one continuation byte with the two four-bit fields, reconstruction
`dr = drg + dg`, `db = dbg + dg`, wraparound addition.  Returns the new
pixel and the rest of the stream. -/
def decode_luma (f : List Nat) (buffer : Nat) (px : Pixel) :
    Pixel × List Nat :=
  let dg := (read_sign_byte (buffer &&& 0x3f) 6).getD 0
  let another_buffer := headByte f
  let drg := (read_sign_byte ((another_buffer &&& 0xf0) >>> 4) 4).getD 0
  let dbg := (read_sign_byte (another_buffer &&& 0x0f) 4).getD 0
  let dr := drg + dg
  let db := dbg + dg
  (⟨addWrap px.r dr, addWrap px.g dg, addWrap px.b db⟩, f.tail)

/-- `decode_index(buffer, index_table) = index_table[buffer & 0x3f]`. -/
def decode_index (buffer : Nat) (index_table : List Pixel) : Pixel :=
  cacheGet index_table (buffer &&& 0x3f)

/-- One non-run iteration of the `while` loop of `qoi_decode`: read the tag
byte and dispatch.  Returns the pixel written to `mat[mat_pos]`, the new
`run` value, the new `index_table`, and the advanced stream.  The final
branch is unreachable (`buffer &&& 0xc0` has only the four tag values). -/
def decodeStep (f : List Nat) (px : Pixel) (index_table : List Pixel) :
    Pixel × Nat × List Pixel × List Nat :=
  let buffer := headByte f
  let f1 := f.tail
  if buffer = QOI_TAG_RGB then
    let out := decode_rgb f1 index_table
    (out.1, 0, out.2.1, out.2.2)
  else if buffer = QOI_TAG_RGBA then
    -- Python: `pass` — nothing is read or updated, `mat[mat_pos] = px`.
    (px, 0, index_table, f1)
  else
    let tag := buffer &&& 0xc0
    if tag = QOI_TAG_RUN then
      (px, (buffer &&& 0x3f) + 1 - 1, index_table, f1)
    else if tag = QOI_TAG_DIFF then
      (decode_diff buffer px, 0, index_table, f1)
    else if tag = QOI_TAG_LUMA then
      let out := decode_luma f1 buffer px
      (out.1, 0, index_table, out.2)
    else if tag = QOI_TAG_INDEX then
      (decode_index buffer index_table, 0, index_table, f1)
    else
      (px, 0, index_table, f1)

/-- The decoding `while mat_pos < px_len` loop, indexed by the number of
pixels still to produce.  Returns the produced pixels and the remaining
stream.  A pending `run` emits the previous pixel without consuming bytes,
exactly as in the source. -/
def decodeLoop : Nat → List Nat → Pixel → Nat → List Pixel →
    List Pixel × List Nat
  | 0, f, _, _, _ => ([], f)
  | n + 1, f, px, run, index_table =>
    if run ≠ 0 then
      let out := decodeLoop n f px (run - 1) index_table
      (px :: out.1, out.2)
    else
      let s := decodeStep f px index_table
      let out := decodeLoop n s.2.2.2 s.1 s.2.1 s.2.2.1
      (s.1 :: out.1, out.2)

/-- The parsed header fields (`Qoi_header` with attributes
width/height/channels/colorspace). -/
structure Qoi_header where
  width : Nat
  height : Nat
  channels : Nat
  colorspace : Nat
deriving DecidableEq

/-- Failure modes of `qoi_decode`.  The first two are the exceptions the
Python code can actually raise; the last three are the error kinds named by
the specification, which this implementation never produces. -/
inductive QoiError where
  /-- `struct.error`: `QOI_HEADER.unpack` on a buffer shorter than 14 bytes. -/
  | structError
  /-- `AssertionError` from `Qoi_header.read_buffer`: magic mismatch. -/
  | formatError
  /-- Named by the spec for a missing input; the code returns `None` instead. -/
  | notFoundError
  /-- Named by the spec for a stream that ends inside a chunk; never raised. -/
  | truncationError
  /-- Named by the spec for an RGBA chunk during decode; never raised. -/
  | unsupportedChunkError
deriving DecidableEq

/-- Result of a `qoi_decode` call: Python's `None` return, a raised
exception, or the decoded header and (row-major, flattened) pixel matrix. -/
inductive DecodeResult where
  | pyNone
  | err (e : QoiError)
  | ok (header : Qoi_header) (pixels : List Pixel)
deriving DecidableEq

/-- Big-endian `u32` field starting at offset `i` of the header buffer
(`struct` format `>I`). -/
def headerWord (buf : List Nat) (i : Nat) : Nat :=
  buf.getD i 0 * 16777216 + buf.getD (i + 1) 0 * 65536 +
    buf.getD (i + 2) 0 * 256 + buf.getD (i + 3) 0

/-- `qoi_decode(path)`.  `input = none` models a `path` for which
`os.path.isfile` is false (the function returns `None`); `input = some f`
is the byte content of the file.  `f.read(QOI_HEADER.size)` yields
`f.take 14`; `QOI_HEADER.unpack` raises `struct.error` unless exactly 14
bytes were read; `read_buffer` asserts the magic; then the chunk loop runs
for `width * height` pixels and the matrix is returned (reshaping to
`height × width × 3` is a relabelling of the same row-major data). -/
def qoi_decode (input : Option (List Nat)) : DecodeResult :=
  match input with
  | none => DecodeResult.pyNone
  | some f =>
    let buffer := f.take 14
    if buffer.length < 14 then DecodeResult.err QoiError.structError
    else if buffer.take 4 ≠ QOI_MAGIC then DecodeResult.err QoiError.formatError
    else
      let width := headerWord buffer 4
      let height := headerWord buffer 8
      let channels := buffer.getD 12 0
      let colorspace := buffer.getD 13 0
      let px_len := width * height
      DecodeResult.ok ⟨width, height, channels, colorspace⟩
        (decodeLoop px_len (f.drop 14) ⟨0, 0, 0⟩ 0 zeroCache).1

/-- The per-pixel `for` loop body of `qoi_encode`, emitting bytes.
State: current pixel list, `px_pre`, `run`, `index_table`, and a flag for
`mat_pos != 0`.  The run-condition, the flush of a pending run, the cache
probe, and the Diff/Luma/Rgb selection are verbatim from the source; the
final-run flush `if mat_pos == px_len - 1` is the `rest = []` test. -/
def encodeLoop : List Pixel → Pixel → Nat → List Pixel → Bool → List Nat
  | [], _, _, _, _ => []
  | px :: rest, px_pre, run, index_table, notFirst =>
    if px = px_pre ∧ notFirst = true ∧ run < 62 then
      if rest = [] then pack_qoi_op_run (run + 1)
      else encodeLoop rest px (run + 1) index_table true
    else
      (if run ≠ 0 then pack_qoi_op_run run else []) ++
      (let index_pos := qoi_color_hash px.r px.g px.b 255
       if cacheGet index_table index_pos = px then
         pack_qoi_op_index index_pos ++ encodeLoop rest px 0 index_table true
       else
         let dr : Int := (px.r : Int) - (px_pre.r : Int)
         let dg : Int := (px.g : Int) - (px_pre.g : Int)
         let db : Int := (px.b : Int) - (px_pre.b : Int)
         let drg := dr - dg
         let dbg := db - dg
         if -3 < dr ∧ dr < 2 ∧ -3 < dg ∧ dg < 2 ∧ -3 < db ∧ db < 2 then
           pack_qoi_op_diff dr dg db ++ encodeLoop rest px 0 index_table true
         else if -33 < dg ∧ dg < 32 ∧ -9 < drg ∧ drg < 8 ∧ -9 < dbg ∧ dbg < 8 then
           pack_qoi_op_luma drg dg dbg ++ encodeLoop rest px 0 index_table true
         else
           pack_qoi_op_rgb px.r px.g px.b ++
             encodeLoop rest px 0 (index_table.set index_pos px) true)

/-- `qoi_encode(mat, path)`: header, encoded chunk stream, end marker.
`mat` is the flattened row-major pixel matrix of shape
`(width * height, 3)`; the return value is the byte content written to
`path`. -/
def qoi_encode (mat : List Pixel) (width height : Nat) : List Nat :=
  pack_qoi_header width height 3 1 ++
    encodeLoop mat ⟨0, 0, 0⟩ 0 zeroCache false ++ END_MARKER

/-- The chunk alphabet of the format, used to state chunk-level properties
of the encoder. -/
inductive Chunk where
  | rgb (r g b : Nat)
  | index (slot : Nat)
  | diff (dr dg db : Int)
  | luma (drg dg dbg : Int)
  | run (len : Nat)
deriving DecidableEq

/-- Serialization of one chunk, by the packing function of the source. -/
def packChunk : Chunk → List Nat
  | Chunk.rgb r g b => pack_qoi_op_rgb r g b
  | Chunk.index slot => pack_qoi_op_index slot
  | Chunk.diff dr dg db => pack_qoi_op_diff dr dg db
  | Chunk.luma drg dg dbg => pack_qoi_op_luma drg dg dbg
  | Chunk.run len => pack_qoi_op_run len

/-- Serialization of a chunk sequence. -/
def packChunks : List Chunk → List Nat
  | [] => []
  | c :: cs => packChunk c ++ packChunks cs

/-- The chunk selected by the `else` branch of the encoder loop for a pixel
`px` that is not absorbed into a run, together with the updated
`index_table` (written only on the Rgb path). -/
def selectChunk (px px_pre : Pixel) (index_table : List Pixel) :
    Chunk × List Pixel :=
  let index_pos := qoi_color_hash px.r px.g px.b 255
  if cacheGet index_table index_pos = px then
    (Chunk.index index_pos, index_table)
  else
    let dr : Int := (px.r : Int) - (px_pre.r : Int)
    let dg : Int := (px.g : Int) - (px_pre.g : Int)
    let db : Int := (px.b : Int) - (px_pre.b : Int)
    let drg := dr - dg
    let dbg := db - dg
    if -3 < dr ∧ dr < 2 ∧ -3 < dg ∧ dg < 2 ∧ -3 < db ∧ db < 2 then
      (Chunk.diff dr dg db, index_table)
    else if -33 < dg ∧ dg < 32 ∧ -9 < drg ∧ drg < 8 ∧ -9 < dbg ∧ dbg < 8 then
      (Chunk.luma drg dg dbg, index_table)
    else
      (Chunk.rgb px.r px.g px.b, index_table.set index_pos px)

/-- Chunk-level view of the encoder loop: same control flow as
`encodeLoop`, emitting `Chunk`s instead of their bytes
(`encodeLoop_eq_packChunks` below proves the correspondence). -/
def chunkLoop : List Pixel → Pixel → Nat → List Pixel → Bool → List Chunk
  | [], _, _, _, _ => []
  | px :: rest, px_pre, run, index_table, notFirst =>
    if px = px_pre ∧ notFirst = true ∧ run < 62 then
      if rest = [] then [Chunk.run (run + 1)]
      else chunkLoop rest px (run + 1) index_table true
    else
      (if run ≠ 0 then [Chunk.run run] else []) ++
      (let s := selectChunk px px_pre index_table
       s.1 :: chunkLoop rest px 0 s.2 true)

/-- The chunk sequence `qoi_encode` emits for a pixel matrix. -/
def qoiEncodeChunks (mat : List Pixel) : List Chunk :=
  chunkLoop mat ⟨0, 0, 0⟩ 0 zeroCache false

/-- The lengths of the Run chunks of a chunk sequence, in order. -/
def runLengths (cs : List Chunk) : List Nat :=
  cs.filterMap fun c =>
    match c with
    | Chunk.run n => some n
    | _ => none

/-- A pixel whose channels are representable `uint8` values. -/
def Pixel.valid (p : Pixel) : Prop := p.r < 256 ∧ p.g < 256 ∧ p.b < 256

/-- A well-formed `index_table`: 64 slots of representable pixels. -/
def validCache (t : List Pixel) : Prop :=
  t.length = 64 ∧ ∀ p ∈ t, p.valid

instance : DecidablePred Pixel.valid := fun p =>
  inferInstanceAs (Decidable (p.r < 256 ∧ p.g < 256 ∧ p.b < 256))

/-- Adjacency constraint on emitted chunks: a chunk directly following an
`Index` chunk must not be an `Index` chunk for the same slot. -/
def IndexAdjOk (a b : Chunk) : Prop :=
  ∀ s, a = Chunk.index s → b ≠ Chunk.index s

instance : ∀ a b, Decidable (IndexAdjOk a b) := fun a b => by
  unfold IndexAdjOk
  cases a with
  | index s =>
    cases b with
    | index s' =>
      refine if h : s = s' then .isFalse ?_ else .isTrue ?_
      · subst h; intro hall; exact hall s rfl rfl
      · intro s'' hs''; cases hs''; simpa using Ne.symm h
    | rgb r g b => exact .isTrue (by intro s' h1 h2; cases h2)
    | diff a b c => exact .isTrue (by intro s' h1 h2; cases h2)
    | luma a b c => exact .isTrue (by intro s' h1 h2; cases h2)
    | run n => exact .isTrue (by intro s' h1 h2; cases h2)
  | rgb r g b => exact .isTrue (by intro s h1; cases h1)
  | diff a b c => exact .isTrue (by intro s h1; cases h1)
  | luma a b c => exact .isTrue (by intro s h1; cases h1)
  | run n => exact .isTrue (by intro s h1; cases h1)

/-- A chunk of the `Run` variant. -/
def Chunk.isRun : Chunk → Prop
  | Chunk.run _ => True
  | _ => False

instance : DecidablePred Chunk.isRun := fun c => by
  cases c with
  | run n => exact .isTrue trivial
  | rgb r g b => exact .isFalse (fun h => h)
  | index s => exact .isFalse (fun h => h)
  | diff a b c => exact .isFalse (fun h => h)
  | luma a b c => exact .isFalse (fun h => h)

/-! ## Simple behavioural theorems -/

/-- Claim C2: the claim (and the source's own docstrings) say the signed
chunk fields are stored with a bias (+2 for Diff components, +32 for the
Luma green difference, +8 for the Luma red/blue differences), e.g. `-2`
stored as `0` and `1` stored as `3` in a Diff field.  The code instead
stores each field as `value mod 2^width` (two's complement): `-2` becomes
`2`, `1` stays `1`, `-32` becomes `32`, `-8` becomes `8`.  This theorem
evaluates the packing functions at in-range inputs: the produced bytes
differ from the biased bytes the claim describes (`0x40` for
`Diff(-2,-2,-2)`, `0x7f` for `Diff(1,1,1)`, `[0x80, 0x00]` for
`Luma(dg=-32, drg=-8, dbg=-8)`). -/
theorem C2_pack_bias_bug :
    pack_qoi_op_diff (-2) (-2) (-2) = [0x6a] ∧
    pack_qoi_op_diff 1 1 1 = [0x55] ∧
    pack_qoi_op_luma (-8) (-32) (-8) = [0xa0, 0x88] ∧
    pack_qoi_op_diff (-2) (-2) (-2) ≠ [0x40] ∧
    pack_qoi_op_diff 1 1 1 ≠ [0x7f] ∧
    pack_qoi_op_luma (-8) (-32) (-8) ≠ [0x80, 0x00] := by
  decide

/-- Claim C3 (counterexample): a well-formed 1×1 stream whose single chunk
byte is the reserved RGBA tag `0xff` does not fail at all — decode returns
a successful result (the zero previous pixel), not an
`UnsupportedChunkError`. -/
theorem C3_counterexample :
    qoi_decode (some (pack_qoi_header 1 1 3 1 ++ [0xff])) =
      DecodeResult.ok ⟨1, 1, 3, 1⟩ [⟨0, 0, 0⟩] ∧
    qoi_decode (some (pack_qoi_header 1 1 3 1 ++ [0xff])) ≠
      DecodeResult.err QoiError.unsupportedChunkError := by
  decide

/-- Claim C3 (amended): when the decoder, needing a new chunk, reads a tag
byte equal to the reserved RGBA tag `0xff`, it does not fail: it consumes
just that byte, leaves the pixel, run and cache state unchanged, and emits
the previous pixel for the current position. -/
theorem C3_rgba_tag_skipped (rest : List Nat) (px : Pixel)
    (t : List Pixel) (n : Nat) :
    decodeLoop (n + 1) (0xff :: rest) px 0 t =
      (px :: (decodeLoop n rest px 0 t).1, (decodeLoop n rest px 0 t).2) :=
  rfl

/-- Claim C4 (counterexample): for an input designating no readable data
(`os.path.isfile` false), `qoi_decode` does not fail with `NotFoundError`
(it returns Python's `None`). -/
theorem C4_counterexample :
    qoi_decode none ≠ DecodeResult.err QoiError.notFoundError := by
  decide

/-- Claim C4 (amended): for an input designating no readable data, the
decode call returns the sentinel `None` instead of raising any error. -/
theorem C4_decode_missing_input_returns_none :
    qoi_decode none = DecodeResult.pyNone :=
  rfl

/-- Claim C5 (counterexample): a stream that ends immediately after an Rgb
tag byte (so the chunk's three declared channel bytes are missing, and the
second pixel has no tag byte at all) decodes without any error: missing
bytes are read as `0`. -/
theorem C5_counterexample :
    qoi_decode (some (pack_qoi_header 2 1 3 1 ++ [0xfe])) =
      DecodeResult.ok ⟨2, 1, 3, 1⟩ [⟨0, 0, 0⟩, ⟨0, 0, 0⟩] ∧
    qoi_decode (some (pack_qoi_header 2 1 3 1 ++ [0xfe])) ≠
      DecodeResult.err QoiError.truncationError := by
  decide

/-- Claim C5 (amended): the chunk loop never fails on a truncated stream:
whatever bytes remain, it produces exactly the requested number of pixels,
because `f.read(1)` past the end of the stream yields the byte value `0`
(which is then interpreted as an `Index(0)` chunk, and missing Rgb/Luma
payload bytes are read as `0`). -/
theorem C5_truncation_never_fails (n : Nat) :
    ∀ (f : List Nat) (px : Pixel) (run : Nat) (t : List Pixel),
      (decodeLoop n f px run t).1.length = n := by
  induction n with
  | zero => intro f px run t; rfl
  | succ n ih =>
    intro f px run t
    by_cases h : run ≠ 0
    · simp only [decodeLoop, if_pos h, List.length_cons, ih]
    · simp only [decodeLoop, if_neg h, List.length_cons, ih]

/-- Claim C7 (counterexample): the 4-byte stream `[0,0,0,0]` has a first
four bytes different from the magic, but decode fails with the
`struct.error` of the 14-byte header unpack, not with the magic-check
`FormatError`. -/
theorem C7_counterexample :
    qoi_decode (some [0, 0, 0, 0]) = DecodeResult.err QoiError.structError ∧
    qoi_decode (some [0, 0, 0, 0]) ≠ DecodeResult.err QoiError.formatError := by
  decide

/-- Claim C7 (amended): every byte stream of length at least 14 whose first
4 bytes are not the magic `b'qoif'` fails decode with the magic-check
failure (`FormatError`), regardless of the remaining content; streams
shorter than 14 bytes fail earlier, in the header unpack. -/
theorem C7_magic_mismatch (f : List Nat) (hlen : 14 ≤ f.length)
    (hmagic : f.take 4 ≠ QOI_MAGIC) :
    qoi_decode (some f) = DecodeResult.err QoiError.formatError := by
  have h1 : ¬ (f.take 14).length < 14 := by
    simp only [List.length_take]
    omega
  have h2 : (f.take 14).take 4 = f.take 4 := by
    rw [List.take_take]
    norm_num
  have h3 : (f.take 14).take 4 ≠ QOI_MAGIC := by
    rw [h2]
    exact hmagic
  simp only [qoi_decode]
  rw [if_neg h1, if_pos h3]

/-- Witness for `C7_magic_mismatch` at the all-zero 14-byte stream. -/
theorem C7_magic_mismatch_witness :
    14 ≤ (List.replicate 14 0).length ∧
    (List.replicate 14 0).take 4 ≠ QOI_MAGIC ∧
    qoi_decode (some (List.replicate 14 0)) =
      DecodeResult.err QoiError.formatError :=
  ⟨by decide, by decide, C7_magic_mismatch (List.replicate 14 0) (by decide) (by decide)⟩

/-- Claim C9: a color-cache slot is written only on the Rgb paths.  On the
encoder side, the table returned by `selectChunk` (the per-pixel chunk
selection used at every non-run step of `chunkLoop`/`encodeLoop`) equals
the input table unless the selected chunk is an `Rgb` chunk, in which case
exactly the slot at the pixel's hash is overwritten.  On the decoder side,
the table produced by one step of the chunk loop (`decodeStep`, used at
every byte-consuming iteration of `decodeLoop`) equals the input table
unless the tag byte is the Rgb tag, in which case the table is the one
written by `decode_rgb`.  The Diff, Luma, Index and Run paths (and the
skipped RGBA tag) leave the table untouched. -/
theorem C9_cache_write_only_rgb (px px_pre : Pixel) (t : List Pixel)
    (f : List Nat) :
    ((selectChunk px px_pre t).2 =
      match (selectChunk px px_pre t).1 with
      | Chunk.rgb _ _ _ => t.set (qoi_color_hash px.r px.g px.b 255) px
      | _ => t) ∧
    ((decodeStep f px t).2.2.1 =
      if headByte f = QOI_TAG_RGB then (decode_rgb f.tail t).2.1 else t) := by
  constructor
  · simp only [selectChunk]
    split_ifs <;> rfl
  · simp only [decodeStep]
    split_ifs <;> rfl

/-- Claim C8: at an encode step whose pixel is not found in the cache, the
encoder emits a `Diff` chunk exactly when the three channel differences
from the previous pixel (as unbounded integers) all lie in `[-2, 1]`.  In
particular a pixel differing by `(+1, -2, +1)` selects
`Diff(1, -2, 1)`, and one differing by `(+1, -2, +2)` falls through the
Diff test and, the luma ranges being satisfied, selects
`Luma(drg = 3, dg = -2, dbg = 4)`. -/
theorem C8_diff_selection (px px_pre : Pixel) (t : List Pixel)
    (hmiss : cacheGet t (qoi_color_hash px.r px.g px.b 255) ≠ px) :
    ((∃ a b c, (selectChunk px px_pre t).1 = Chunk.diff a b c) ↔
      (-2 ≤ (px.r : Int) - px_pre.r ∧ (px.r : Int) - px_pre.r ≤ 1 ∧
       -2 ≤ (px.g : Int) - px_pre.g ∧ (px.g : Int) - px_pre.g ≤ 1 ∧
       -2 ≤ (px.b : Int) - px_pre.b ∧ (px.b : Int) - px_pre.b ≤ 1)) ∧
    (((px.r : Int) - px_pre.r = 1 ∧ (px.g : Int) - px_pre.g = -2 ∧
      (px.b : Int) - px_pre.b = 1) →
      (selectChunk px px_pre t).1 = Chunk.diff 1 (-2) 1) ∧
    (((px.r : Int) - px_pre.r = 1 ∧ (px.g : Int) - px_pre.g = -2 ∧
      (px.b : Int) - px_pre.b = 2) →
      (selectChunk px px_pre t).1 = Chunk.luma 3 (-2) 4) := by
  simp only [selectChunk]
  rw [if_neg hmiss]
  split_ifs with hd hl
  · obtain ⟨d1, d2, d3, d4, d5, d6⟩ := hd
    refine ⟨⟨fun _ => ?_, fun _ => ⟨_, _, _, rfl⟩⟩, fun e => ?_, fun e => ?_⟩
    · refine ⟨by omega, by omega, by omega, by omega, by omega, by omega⟩
    · obtain ⟨e1, e2, e3⟩ := e
      dsimp only
      rw [e1, e2, e3]
    · obtain ⟨e1, e2, e3⟩ := e
      omega
  · refine ⟨⟨fun h => ?_, fun hb => ?_⟩, fun e => ?_, fun e => ?_⟩
    · obtain ⟨a, b, c, h⟩ := h
      simp at h
    · obtain ⟨b1, b2, b3, b4, b5, b6⟩ := hb
      exact absurd ⟨by omega, by omega, by omega, by omega, by omega, by omega⟩ hd
    · obtain ⟨e1, e2, e3⟩ := e
      exact absurd ⟨by omega, by omega, by omega, by omega, by omega, by omega⟩ hd
    · obtain ⟨e1, e2, e3⟩ := e
      dsimp only
      rw [e1, e2, e3]
      norm_num
  · refine ⟨⟨fun h => ?_, fun hb => ?_⟩, fun e => ?_, fun e => ?_⟩
    · obtain ⟨a, b, c, h⟩ := h
      simp at h
    · obtain ⟨b1, b2, b3, b4, b5, b6⟩ := hb
      exact absurd ⟨by omega, by omega, by omega, by omega, by omega, by omega⟩ hd
    · obtain ⟨e1, e2, e3⟩ := e
      exact absurd ⟨by omega, by omega, by omega, by omega, by omega, by omega⟩ hd
    · obtain ⟨e1, e2, e3⟩ := e
      exact absurd ⟨by omega, by omega, by omega, by omega, by omega⟩ hl

/-- Witness for `C8_diff_selection`: a concrete cache miss, with the
`(+1, -2, +1)` instance evaluated. -/
theorem C8_diff_selection_witness :
    cacheGet zeroCache (qoi_color_hash 5 5 5 255) ≠ (⟨5, 5, 5⟩ : Pixel) ∧
    (selectChunk ⟨5, 5, 5⟩ ⟨4, 7, 4⟩ zeroCache).1 = Chunk.diff 1 (-2) 1 :=
  ⟨by decide,
    (C8_diff_selection ⟨5, 5, 5⟩ ⟨4, 7, 4⟩ zeroCache (by decide)).2.1
      ⟨by decide, by decide, by decide⟩⟩

/-- One-step unfolding of `chunkLoop` on an empty pixel list. -/
theorem chunkLoop_nil (px_pre : Pixel) (run : Nat) (t : List Pixel)
    (nf : Bool) : chunkLoop [] px_pre run t nf = [] := rfl

/-- One-step unfolding of `chunkLoop` on a pixel. -/
theorem chunkLoop_cons (px : Pixel) (rest : List Pixel) (px_pre : Pixel)
    (run : Nat) (t : List Pixel) (nf : Bool) :
    chunkLoop (px :: rest) px_pre run t nf =
      if px = px_pre ∧ nf = true ∧ run < 62 then
        (if rest = [] then [Chunk.run (run + 1)]
         else chunkLoop rest px (run + 1) t true)
      else
        (if run ≠ 0 then [Chunk.run run] else []) ++
          ((selectChunk px px_pre t).1 ::
            chunkLoop rest px 0 (selectChunk px px_pre t).2 true) := rfl

/-- The per-pixel chunk selection never yields a `Run` chunk: `Run` chunks
are produced only by flushing the run counter. -/
theorem selectChunk_not_isRun (px px_pre : Pixel) (t : List Pixel) :
    ¬ Chunk.isRun (selectChunk px px_pre t).1 := by
  simp only [selectChunk]
  split_ifs <;> exact fun h => h

/-- Accumulating a run: as long as the run counter stays below the cap,
`k` further copies of the previous pixel only increment the counter. -/
theorem chunkLoop_replicate_accum (k : Nat) :
    ∀ (v : Pixel) (rest : List Pixel) (run : Nat) (t : List Pixel),
      run + k ≤ 62 → rest ≠ [] →
      chunkLoop (List.replicate k v ++ rest) v run t true =
        chunkLoop rest v (run + k) t true := by
  induction k with
  | zero =>
    intro v rest run t h hr
    simp
  | succ k ih =>
    intro v rest run t h hr
    have hne : List.replicate k v ++ rest ≠ [] := by
      intro hcontra
      exact hr (List.append_eq_nil.mp hcontra).2
    calc chunkLoop (List.replicate (k + 1) v ++ rest) v run t true
        = chunkLoop (List.replicate k v ++ rest) v (run + 1) t true := by
          rw [List.replicate_succ, List.cons_append, chunkLoop_cons]
          rw [if_pos ⟨rfl, rfl, by omega⟩, if_neg hne]
      _ = chunkLoop rest v (run + 1 + k) t true := ih v rest (run + 1) t (by omega) hr
      _ = chunkLoop rest v (run + (k + 1)) t true := by
          rw [show run + 1 + k = run + (k + 1) from by omega]

/-- Claim C6 (counterexample): for the concrete image of 70 copies of
`(10,10,10)` followed by `(200,0,0)`, the encoder's Run chunks have lengths
62 and 6 (with a standalone chunk between them), not 62 and 7: once the
counter reaches the cap the 64th identical pixel is encoded by its own
non-Run chunk rather than starting the next run. -/
theorem C6_counterexample :
    runLengths (qoiEncodeChunks
        (List.replicate 70 ⟨10, 10, 10⟩ ++ [⟨200, 0, 0⟩])) = [62, 6] ∧
    runLengths (qoiEncodeChunks
        (List.replicate 70 ⟨10, 10, 10⟩ ++ [⟨200, 0, 0⟩])) ≠ [62, 7] := by
  decide

/-- Claim C6 (amended): for every image of 70 identical pixels followed by
one different pixel, the encoder emits exactly the chunk sequence: one
non-Run chunk for the first pixel, a `Run(62)`, one non-Run chunk for the
64th pixel (the identical pixel at which the run cap was hit), a `Run(6)`,
and one non-Run chunk for the differing pixel. -/
theorem C6_run_split_structure (v w : Pixel) (hne : v ≠ w) :
    ∃ c₀ c₁ c₂, ¬ Chunk.isRun c₀ ∧ ¬ Chunk.isRun c₁ ∧ ¬ Chunk.isRun c₂ ∧
      qoiEncodeChunks (List.replicate 70 v ++ [w]) =
        [c₀, Chunk.run 62, c₁, Chunk.run 6, c₂] := by
  have h70 : List.replicate 70 v ++ [w] =
      v :: (List.replicate 62 v ++ (v :: (List.replicate 6 v ++ [w]))) := by
    rw [show (70 : Nat) = 1 + (62 + (1 + 6)) from rfl]
    rw [List.replicate_add, List.replicate_add, List.replicate_add]
    simp [List.append_assoc]
  have step1 : chunkLoop
      (v :: (List.replicate 62 v ++ (v :: (List.replicate 6 v ++ [w]))))
      ⟨0, 0, 0⟩ 0 zeroCache false =
      (selectChunk v ⟨0, 0, 0⟩ zeroCache).1 ::
        chunkLoop (List.replicate 62 v ++ (v :: (List.replicate 6 v ++ [w])))
          v 0 (selectChunk v ⟨0, 0, 0⟩ zeroCache).2 true := by
    rw [chunkLoop_cons]
    rw [if_neg (by rintro ⟨-, hb, -⟩; exact Bool.false_ne_true hb), if_neg (by omega)]
    rfl
  have step2 : chunkLoop
      (List.replicate 62 v ++ (v :: (List.replicate 6 v ++ [w])))
      v 0 (selectChunk v ⟨0, 0, 0⟩ zeroCache).2 true =
      chunkLoop (v :: (List.replicate 6 v ++ [w]))
        v 62 (selectChunk v ⟨0, 0, 0⟩ zeroCache).2 true :=
    chunkLoop_replicate_accum 62 v _ 0 _ (by omega) (by simp)
  have step3 : chunkLoop (v :: (List.replicate 6 v ++ [w]))
      v 62 (selectChunk v ⟨0, 0, 0⟩ zeroCache).2 true =
      Chunk.run 62 ::
        (selectChunk v v (selectChunk v ⟨0, 0, 0⟩ zeroCache).2).1 ::
          chunkLoop (List.replicate 6 v ++ [w]) v 0
            (selectChunk v v (selectChunk v ⟨0, 0, 0⟩ zeroCache).2).2 true := by
    rw [chunkLoop_cons]
    rw [if_neg (by rintro ⟨-, -, h62⟩; omega), if_pos (by omega)]
    rfl
  have step4 : chunkLoop (List.replicate 6 v ++ [w]) v 0
      (selectChunk v v (selectChunk v ⟨0, 0, 0⟩ zeroCache).2).2 true =
      chunkLoop [w] v 6
        (selectChunk v v (selectChunk v ⟨0, 0, 0⟩ zeroCache).2).2 true :=
    chunkLoop_replicate_accum 6 v _ 0 _ (by omega) (by simp)
  have step5 : chunkLoop [w] v 6
      (selectChunk v v (selectChunk v ⟨0, 0, 0⟩ zeroCache).2).2 true =
      [Chunk.run 6,
        (selectChunk w v
          (selectChunk v v (selectChunk v ⟨0, 0, 0⟩ zeroCache).2).2).1] := by
    rw [chunkLoop_cons]
    rw [if_neg (by rintro ⟨hw, -, -⟩; exact hne hw.symm), if_pos (by omega)]
    rfl
  refine ⟨(selectChunk v ⟨0, 0, 0⟩ zeroCache).1,
    (selectChunk v v (selectChunk v ⟨0, 0, 0⟩ zeroCache).2).1,
    (selectChunk w v
      (selectChunk v v (selectChunk v ⟨0, 0, 0⟩ zeroCache).2).2).1,
    selectChunk_not_isRun v ⟨0, 0, 0⟩ zeroCache,
    selectChunk_not_isRun v v _,
    selectChunk_not_isRun w v _, ?_⟩
  unfold qoiEncodeChunks
  rw [h70, step1, step2, step3, step4, step5]

/-- Witness for `C6_run_split_structure` at a concrete pixel pair. -/
theorem C6_run_split_structure_witness :
    (⟨10, 10, 10⟩ : Pixel) ≠ ⟨200, 0, 0⟩ ∧
    (∃ c₀ c₁ c₂, ¬ Chunk.isRun c₀ ∧ ¬ Chunk.isRun c₁ ∧ ¬ Chunk.isRun c₂ ∧
      qoiEncodeChunks (List.replicate 70 ⟨10, 10, 10⟩ ++ [⟨200, 0, 0⟩]) =
        [c₀, Chunk.run 62, c₁, Chunk.run 6, c₂]) :=
  ⟨by decide, C6_run_split_structure ⟨10, 10, 10⟩ ⟨200, 0, 0⟩ (by decide)⟩

/-- If the chunk selection returns an `Index` chunk, the probed cache slot
holds exactly the current pixel, and the cache is returned unchanged. -/
theorem selectChunk_index_inv (px px_pre : Pixel) (t : List Pixel) (s : Nat)
    (h : (selectChunk px px_pre t).1 = Chunk.index s) :
    cacheGet t s = px ∧ (selectChunk px px_pre t).2 = t := by
  simp only [selectChunk] at h ⊢
  split_ifs at h ⊢ with h1
  dsimp only at h ⊢
  cases h
  exact ⟨h1, rfl⟩

/-- Invariant of the encoder's chunk stream: the emitted chunks satisfy the
`IndexAdjOk` adjacency constraint, and moreover a stream can begin with
`Index s` only when the entering run counter is zero and (if not at the
first pixel) slot `s` does not hold the previous pixel. -/
theorem chunkLoop_chain (ps : List Pixel) :
    ∀ (px_pre : Pixel) (run : Nat) (t : List Pixel) (nf : Bool),
      List.Chain' IndexAdjOk (chunkLoop ps px_pre run t nf) ∧
      (∀ s, (chunkLoop ps px_pre run t nf).head? = some (Chunk.index s) →
        run = 0 ∧ (nf = true → cacheGet t s ≠ px_pre)) := by
  induction ps with
  | nil =>
    intro px_pre run t nf
    rw [chunkLoop_nil]
    exact ⟨List.chain'_nil, by intro s h; simp at h⟩
  | cons px rest ih =>
    intro px_pre run t nf
    rw [chunkLoop_cons]
    by_cases hc : px = px_pre ∧ nf = true ∧ run < 62
    · rw [if_pos hc]
      by_cases hrest : rest = []
      · rw [if_pos hrest]
        refine ⟨List.chain'_singleton _, ?_⟩
        intro s h
        simp at h
      · rw [if_neg hrest]
        refine ⟨(ih px (run + 1) t true).1, ?_⟩
        intro s h
        exact absurd ((ih px (run + 1) t true).2 s h).1 (by omega)
    · rw [if_neg hc]
      have hlink : ∀ b,
          (chunkLoop rest px 0 (selectChunk px px_pre t).2 true).head? =
            some b → IndexAdjOk (selectChunk px px_pre t).1 b := by
        intro b hb s hcs hbs
        obtain ⟨hslot, hsame⟩ := selectChunk_index_inv px px_pre t s hcs
        rw [hbs] at hb
        have h2 := (ih px 0 (selectChunk px px_pre t).2 true).2 s hb
        exact (h2.2 rfl) (by rw [hsame]; exact hslot)
      have hchain_cons : List.Chain' IndexAdjOk
          ((selectChunk px px_pre t).1 ::
            chunkLoop rest px 0 (selectChunk px px_pre t).2 true) := by
        rw [List.chain'_cons']
        exact ⟨fun b hb => hlink b (Option.mem_def.mp hb),
          (ih px 0 (selectChunk px px_pre t).2 true).1⟩
      by_cases hr : run ≠ 0
      · rw [if_pos hr]
        refine ⟨?_, ?_⟩
        · show List.Chain' IndexAdjOk (Chunk.run run :: _)
          rw [List.chain'_cons']
          refine ⟨?_, hchain_cons⟩
          intro b hb s hcs
          cases hcs
        · intro s h
          simp at h
      · rw [if_neg hr]
        push_neg at hr
        refine ⟨hchain_cons, ?_⟩
        intro s h
        have hc' : (selectChunk px px_pre t).1 = Chunk.index s := by
          simpa using h
        obtain ⟨hslot, hsame⟩ := selectChunk_index_inv px px_pre t s hc'
        refine ⟨hr, ?_⟩
        intro hnf hcache
        exact hc ⟨hslot.symm.trans hcache, hnf, by omega⟩

/-- Claim C10: the chunk sequence emitted by the encoder never contains two
consecutive `Index` chunks referring to the same cache slot
(`IndexAdjOk` holds between every two adjacent emitted chunks). -/
theorem C10_no_consecutive_same_index (mat : List Pixel) :
    List.Chain' IndexAdjOk (qoiEncodeChunks mat) :=
  (chunkLoop_chain mat ⟨0, 0, 0⟩ 0 zeroCache false).1

/-! ## Round-trip infrastructure -/

/-- One-step unfolding of `encodeLoop` on an empty list. -/
theorem encodeLoop_nil (px_pre : Pixel) (run : Nat) (t : List Pixel)
    (nf : Bool) : encodeLoop [] px_pre run t nf = [] := rfl

/-- One-step unfolding of `encodeLoop`, phrased through `selectChunk`: the
inlined chunk-selection conditionals of the byte-level loop coincide with
`packChunk` of the selected chunk. -/
theorem encodeLoop_cons_eq (px : Pixel) (rest : List Pixel) (px_pre : Pixel)
    (run : Nat) (t : List Pixel) (nf : Bool) :
    encodeLoop (px :: rest) px_pre run t nf =
      if px = px_pre ∧ nf = true ∧ run < 62 then
        (if rest = [] then pack_qoi_op_run (run + 1)
         else encodeLoop rest px (run + 1) t true)
      else
        (if run ≠ 0 then pack_qoi_op_run run else []) ++
          (packChunk (selectChunk px px_pre t).1 ++
            encodeLoop rest px 0 (selectChunk px px_pre t).2 true) := by
  simp only [encodeLoop, selectChunk, packChunk]
  split_ifs <;> rfl

/-- Serialization distributes over concatenation of chunk sequences. -/
theorem packChunks_append (a b : List Chunk) :
    packChunks (a ++ b) = packChunks a ++ packChunks b := by
  induction a with
  | nil => rfl
  | cons c cs ih => simp [packChunks, ih, List.append_assoc]

/-- The byte stream emitted by the encoder loop is the serialization of its
chunk-level view: `chunkLoop` is a faithful description of `encodeLoop`. -/
theorem encodeLoop_eq_packChunks (ps : List Pixel) :
    ∀ (px_pre : Pixel) (run : Nat) (t : List Pixel) (nf : Bool),
      encodeLoop ps px_pre run t nf =
        packChunks (chunkLoop ps px_pre run t nf) := by
  induction ps with
  | nil => intro px_pre run t nf; rfl
  | cons px rest ih =>
    intro px_pre run t nf
    rw [encodeLoop_cons_eq, chunkLoop_cons]
    by_cases hc : px = px_pre ∧ nf = true ∧ run < 62
    · rw [if_pos hc, if_pos hc]
      by_cases hrest : rest = []
      · rw [if_pos hrest, if_pos hrest]
        simp [packChunks, packChunk]
      · rw [if_neg hrest, if_neg hrest]
        exact ih px (run + 1) t true
    · rw [if_neg hc, if_neg hc]
      rw [packChunks_append]
      congr 1
      · by_cases hr : run ≠ 0
        · rw [if_pos hr, if_pos hr]
          simp [packChunks, packChunk]
        · rw [if_neg hr, if_neg hr]
          rfl
      · rw [show packChunks ((selectChunk px px_pre t).1 ::
            chunkLoop rest px 0 (selectChunk px px_pre t).2 true) =
            packChunk (selectChunk px px_pre t).1 ++
              packChunks (chunkLoop rest px 0 (selectChunk px px_pre t).2 true)
            from rfl]
        rw [ih px 0 (selectChunk px px_pre t).2 true]

/-- One-step unfolding of `decodeLoop` at zero remaining pixels. -/
theorem decodeLoop_zero (f : List Nat) (px : Pixel) (run : Nat)
    (t : List Pixel) : decodeLoop 0 f px run t = ([], f) := rfl

/-- One-step unfolding of `decodeLoop`. -/
theorem decodeLoop_succ (n : Nat) (f : List Nat) (px : Pixel) (run : Nat)
    (t : List Pixel) :
    decodeLoop (n + 1) f px run t =
      if run ≠ 0 then
        (px :: (decodeLoop n f px (run - 1) t).1,
          (decodeLoop n f px (run - 1) t).2)
      else
        ((decodeStep f px t).1 ::
          (decodeLoop n (decodeStep f px t).2.2.2 (decodeStep f px t).1
            (decodeStep f px t).2.1 (decodeStep f px t).2.2.1).1,
          (decodeLoop n (decodeStep f px t).2.2.2 (decodeStep f px t).1
            (decodeStep f px t).2.1 (decodeStep f px t).2.2.1).2) := rfl

/-- One-step unfolding of `decodeStep` on a nonempty stream, with the tag
constants unfolded to their byte values. -/
theorem decodeStep_cons (b : Nat) (f : List Nat) (px : Pixel)
    (t : List Pixel) :
    decodeStep (b :: f) px t =
      if b = 254 then
        ((decode_rgb f t).1, 0, (decode_rgb f t).2.1, (decode_rgb f t).2.2)
      else if b = 255 then (px, 0, t, f)
      else if b &&& 192 = 192 then (px, (b &&& 63) + 1 - 1, t, f)
      else if b &&& 192 = 64 then (decode_diff b px, 0, t, f)
      else if b &&& 192 = 128 then
        ((decode_luma f b px).1, 0, t, (decode_luma f b px).2)
      else if b &&& 192 = 0 then (decode_index b t, 0, t, f)
      else (px, 0, t, f) := rfl

/-- The hash always lands in the 64-slot range. -/
theorem qoi_color_hash_lt (r g b a : Nat) : qoi_color_hash r g b a < 64 :=
  Nat.mod_lt _ (by norm_num)

/-- Field extraction from a packed Diff byte. -/
theorem diff_byte_fields : ∀ x < 4, ∀ y < 4, ∀ z < 4,
    ((64 + x * 16 + y * 4 + z) &&& 48) >>> 4 = x ∧
    ((64 + x * 16 + y * 4 + z) &&& 12) >>> 2 = y ∧
    ((64 + x * 16 + y * 4 + z) &&& 3) = z ∧
    (64 + x * 16 + y * 4 + z) ≠ 254 ∧
    (64 + x * 16 + y * 4 + z) ≠ 255 ∧
    ((64 + x * 16 + y * 4 + z) &&& 192) = 64 := by
  decide

/-- Field extraction from the first packed Luma byte. -/
theorem luma1_byte_fields : ∀ g < 64,
    ((128 + g) &&& 63) = g ∧ (128 + g) ≠ 254 ∧ (128 + g) ≠ 255 ∧
    ((128 + g) &&& 192) = 128 := by
  decide

/-- Field extraction from the second packed Luma byte. -/
theorem luma2_byte_fields : ∀ a < 16, ∀ b < 16,
    (((a * 16 + b) &&& 240) >>> 4) = a ∧ ((a * 16 + b) &&& 15) = b := by
  decide

/-- Field extraction from a packed Run byte (`m` is the biased length). -/
theorem run_byte_fields : ∀ m < 62,
    ((192 + m) &&& 63) = m ∧ (192 + m) ≠ 254 ∧ (192 + m) ≠ 255 ∧
    ((192 + m) &&& 192) = 192 := by
  decide

/-- Field extraction from a packed Index byte. -/
theorem index_byte_fields : ∀ s < 64,
    (s &&& 63) = s ∧ s ≠ 254 ∧ s ≠ 255 ∧ (s &&& 192) = 0 := by
  decide

/-- `read_sign_byte` undoes the 2-bit mod-4 packing for values in
`[-2, 1]`. -/
theorem sign2_roundtrip (d : Int) (h1 : -2 ≤ d) (h2 : d ≤ 1) :
    (d % 4).toNat < 4 ∧ read_sign_byte (d % 4).toNat 2 = some d := by
  interval_cases d <;> exact ⟨by decide, by decide⟩

/-- `read_sign_byte` undoes the 4-bit mod-16 packing for values in
`[-8, 7]`. -/
theorem sign4_roundtrip (d : Int) (h1 : -8 ≤ d) (h2 : d ≤ 7) :
    (d % 16).toNat < 16 ∧ read_sign_byte (d % 16).toNat 4 = some d := by
  interval_cases d <;> exact ⟨by decide, by decide⟩

/-- `read_sign_byte` undoes the 6-bit mod-64 packing for values in
`[-32, 31]`. -/
theorem sign6_roundtrip (d : Int) (h1 : -32 ≤ d) (h2 : d ≤ 31) :
    (d % 64).toNat < 64 ∧ read_sign_byte (d % 64).toNat 6 = some d := by
  interval_cases d <;> exact ⟨by decide, by decide⟩

/-- Adding back an exact (unwrapped) channel difference reproduces the
target channel value. -/
theorem addWrap_exact (a b : Nat) (hb : b < 256) :
    addWrap a ((b : Int) - (a : Int)) = b := by
  unfold addWrap
  omega

/-- Crux of the round trip: one byte-consuming decoder step applied to the
serialization of the chunk the encoder selects for pixel `p` consumes
exactly that chunk's bytes, produces `p` with run counter 0, and performs
the same cache update as the encoder. -/
theorem decodeStep_selectChunk (p px_pre : Pixel) (t : List Pixel)
    (B : List Nat) (hp : p.valid) :
    decodeStep (packChunk (selectChunk p px_pre t).1 ++ B) px_pre t =
      (p, 0, (selectChunk p px_pre t).2, B) := by
  obtain ⟨hpr, hpg, hpb⟩ := hp
  simp only [selectChunk]
  split_ifs with h1 h2 h3
  · -- Index chunk
    dsimp only [packChunk, pack_qoi_op_index, List.cons_append, List.nil_append]
    obtain ⟨f1, f2, f3, f4⟩ :=
      index_byte_fields (qoi_color_hash p.r p.g p.b 255)
        (qoi_color_hash_lt p.r p.g p.b 255)
    rw [decodeStep_cons, if_neg f2, if_neg f3,
      if_neg (by rw [f4]; decide), if_neg (by rw [f4]; decide),
      if_neg (by rw [f4]; decide), if_pos f4]
    unfold decode_index
    rw [f1, h1]
  · -- Diff chunk
    obtain ⟨hd1, hd2, hd3, hd4, hd5, hd6⟩ := h2
    obtain ⟨hx, hxe⟩ :=
      sign2_roundtrip ((p.r : Int) - (px_pre.r : Int)) (by omega) (by omega)
    obtain ⟨hy, hye⟩ :=
      sign2_roundtrip ((p.g : Int) - (px_pre.g : Int)) (by omega) (by omega)
    obtain ⟨hz, hze⟩ :=
      sign2_roundtrip ((p.b : Int) - (px_pre.b : Int)) (by omega) (by omega)
    obtain ⟨f1, f2, f3, f4, f5, f6⟩ := diff_byte_fields _ hx _ hy _ hz
    dsimp only [packChunk, pack_qoi_op_diff, List.cons_append, List.nil_append]
    rw [decodeStep_cons, if_neg f4, if_neg f5,
      if_neg (by rw [f6]; decide), if_pos f6]
    unfold decode_diff
    rw [f1, f2, f3, hxe, hye, hze]
    simp only [Option.getD_some]
    rw [addWrap_exact px_pre.r p.r hpr, addWrap_exact px_pre.g p.g hpg,
      addWrap_exact px_pre.b p.b hpb]
  · -- Luma chunk
    obtain ⟨hl1, hl2, hl3, hl4, hl5, hl6⟩ := h3
    obtain ⟨hgg, hgge⟩ :=
      sign6_roundtrip ((p.g : Int) - (px_pre.g : Int)) (by omega) (by omega)
    obtain ⟨hrg, hrge⟩ :=
      sign4_roundtrip (((p.r : Int) - (px_pre.r : Int)) -
        ((p.g : Int) - (px_pre.g : Int))) (by omega) (by omega)
    obtain ⟨hbg, hbge⟩ :=
      sign4_roundtrip (((p.b : Int) - (px_pre.b : Int)) -
        ((p.g : Int) - (px_pre.g : Int))) (by omega) (by omega)
    obtain ⟨g1, g2, g3, g4⟩ := luma1_byte_fields _ hgg
    obtain ⟨g5, g6⟩ := luma2_byte_fields _ hrg _ hbg
    dsimp only [packChunk, pack_qoi_op_luma, List.cons_append, List.nil_append]
    rw [decodeStep_cons, if_neg g2, if_neg g3,
      if_neg (by rw [g4]; decide), if_neg (by rw [g4]; decide), if_pos g4]
    unfold decode_luma
    rw [g1, hgge]
    simp only [Option.getD_some, headByte, List.headD, List.tail_cons]
    rw [g5, g6, hrge, hbge]
    simp only [Option.getD_some]
    rw [sub_add_cancel, sub_add_cancel]
    rw [addWrap_exact px_pre.r p.r hpr, addWrap_exact px_pre.g p.g hpg,
      addWrap_exact px_pre.b p.b hpb]
  · -- Rgb chunk
    rfl

/-- Draining a pending decoder run: with run counter `r` the decoder emits
`r` copies of the previous pixel without consuming any bytes. -/
theorem decodeLoop_drain (r : Nat) :
    ∀ (n : Nat) (f : List Nat) (px : Pixel) (t : List Pixel),
      decodeLoop (r + n) f px r t =
        (List.replicate r px ++ (decodeLoop n f px 0 t).1,
          (decodeLoop n f px 0 t).2) := by
  induction r with
  | zero =>
    intro n f px t
    rw [Nat.zero_add]
    simp
  | succ r ih =>
    intro n f px t
    rw [show r + 1 + n = (r + n) + 1 from by omega]
    rw [decodeLoop_succ, if_pos (by omega)]
    simp only [Nat.add_sub_cancel]
    rw [ih n f px t]
    simp [List.replicate_succ]

/-- Main round-trip lemma: decoding the bytes the encoder loop emits (with
any trailing bytes) produces the pending run followed by the encoded
pixels, consumes exactly the emitted bytes, and ends at the trailing
bytes.  The decoder starts from the same previous pixel and cache as the
encoder state, with its own run counter 0. -/
theorem decode_encode_loop (ps : List Pixel) :
    ∀ (px_pre : Pixel) (run : Nat) (t : List Pixel) (nf : Bool)
      (tail : List Nat),
      (∀ p ∈ ps, p.valid) → run ≤ 62 → (ps = [] → run = 0) →
      decodeLoop (run + ps.length) (encodeLoop ps px_pre run t nf ++ tail)
          px_pre 0 t =
        (List.replicate run px_pre ++ ps, tail) := by
  induction ps with
  | nil =>
    intro px_pre run t nf tail hval hrun hnil
    rw [hnil rfl, encodeLoop_nil]
    simp [decodeLoop_zero]
  | cons p rest ih =>
    intro px_pre run t nf tail hval hrun hnil
    have hpval : p.valid := hval p (by simp)
    have hrestval : ∀ q ∈ rest, q.valid := fun q hq => hval q (by simp [hq])
    rw [encodeLoop_cons_eq]
    by_cases hc : p = px_pre ∧ nf = true ∧ run < 62
    · obtain ⟨hpp, hnf, hlt⟩ := hc
      rw [if_pos ⟨hpp, hnf, hlt⟩]
      subst hpp
      by_cases hrest : rest = []
      · subst hrest
        rw [if_pos rfl]
        simp only [List.length_cons, List.length_nil, Nat.zero_add]
        simp only [pack_qoi_op_run, Nat.add_sub_cancel, List.cons_append,
          List.nil_append]
        rw [decodeLoop_succ, if_neg (by omega)]
        obtain ⟨r1, r2, r3, r4⟩ := run_byte_fields run (by omega)
        rw [decodeStep_cons, if_neg r2, if_neg r3, if_pos r4, r1]
        simp only [Nat.add_sub_cancel]
        have hd := decodeLoop_drain run 0 tail p t
        rw [Nat.add_zero, decodeLoop_zero] at hd
        rw [hd]
        simp [← List.replicate_succ, List.replicate_succ']
      · rw [if_neg hrest]
        have hih := ih p (run + 1) t true tail hrestval (by omega)
          (fun h => absurd h hrest)
        simp only [List.length_cons]
        rw [show run + (rest.length + 1) = (run + 1) + rest.length from by
          omega]
        rw [hih, List.replicate_succ', List.append_assoc]
        rfl
    · rw [if_neg hc]
      simp only [List.length_cons]
      by_cases hr : run ≠ 0
      · rw [if_pos hr]
        simp only [pack_qoi_op_run, List.cons_append, List.nil_append,
          List.append_assoc]
        rw [show run + (rest.length + 1) = (run + rest.length) + 1 from by
          omega]
        rw [decodeLoop_succ, if_neg (by omega)]
        obtain ⟨r1, r2, r3, r4⟩ := run_byte_fields (run - 1) (by omega)
        rw [decodeStep_cons, if_neg r2, if_neg r3, if_pos r4, r1]
        simp only [Nat.add_sub_cancel]
        have hd := decodeLoop_drain (run - 1) (rest.length + 1)
          (packChunk (selectChunk p px_pre t).1 ++
            (encodeLoop rest p 0 (selectChunk p px_pre t).2 true ++ tail))
          px_pre t
        rw [show run - 1 + (rest.length + 1) = run + rest.length from by
          omega] at hd
        rw [hd]
        rw [decodeLoop_succ, if_neg (by omega)]
        rw [decodeStep_selectChunk p px_pre t _ hpval]
        have hih := ih p 0 (selectChunk p px_pre t).2 true tail hrestval
          (by omega) (fun _ => rfl)
        rw [Nat.zero_add] at hih
        simp only [List.replicate_zero, List.nil_append] at hih
        rw [hih]
        have hrep : List.replicate run px_pre =
            px_pre :: List.replicate (run - 1) px_pre := by
          cases run with
          | zero => exact absurd rfl hr
          | succ k => simp [List.replicate_succ]
        rw [hrep]
        rfl
      · rw [if_neg hr]
        push_neg at hr
        subst hr
        simp only [List.nil_append, List.append_assoc, Nat.zero_add]
        rw [decodeLoop_succ, if_neg (by omega)]
        rw [decodeStep_selectChunk p px_pre t _ hpval]
        have hih := ih p 0 (selectChunk p px_pre t).2 true tail hrestval
          (by omega) (fun _ => rfl)
        rw [Nat.zero_add] at hih
        simp only [List.replicate_zero, List.nil_append] at hih
        rw [hih]
        simp

/-- Claim C1 (round trip): for every pixel buffer of RGB triples with
matching width and height (and `u32`-representable dimensions, as the
header packing requires), decoding the bytes produced by encoding the
buffer returns exactly the original pixels together with a header carrying
the same width and height and the encoder's channel count 3 (and
colorspace 1). -/
theorem C1_roundtrip (mat : List Pixel) (width height : Nat)
    (hval : ∀ p ∈ mat, p.valid) (hlen : mat.length = width * height)
    (hw : width < 4294967296) (hh : height < 4294967296) :
    qoi_decode (some (qoi_encode mat width height)) =
      DecodeResult.ok ⟨width, height, 3, 1⟩ mat := by
  have hbytes : qoi_encode mat width height =
      113 :: 111 :: 105 :: 102 ::
        (width / 16777216 % 256) :: (width / 65536 % 256) ::
        (width / 256 % 256) :: (width % 256) ::
        (height / 16777216 % 256) :: (height / 65536 % 256) ::
        (height / 256 % 256) :: (height % 256) ::
        3 :: 1 ::
        (encodeLoop mat ⟨0, 0, 0⟩ 0 zeroCache false ++ END_MARKER) := by
    simp [qoi_encode, pack_qoi_header, QOI_MAGIC, be32, List.append_assoc]
  rw [hbytes]
  have hmain := decode_encode_loop mat ⟨0, 0, 0⟩ 0 zeroCache false
    END_MARKER hval (by omega) (fun _ => rfl)
  rw [Nat.zero_add] at hmain
  simp only [List.replicate_zero, List.nil_append] at hmain
  simp only [qoi_decode]
  simp
  rw [if_pos (by decide)]
  have hW : headerWord
      [113, 111, 105, 102, width / 16777216 % 256, width / 65536 % 256,
        width / 256 % 256, width % 256, height / 16777216 % 256,
        height / 65536 % 256, height / 256 % 256, height % 256, 3, 1] 4 =
      width := by
    simp [headerWord]
    omega
  have hH : headerWord
      [113, 111, 105, 102, width / 16777216 % 256, width / 65536 % 256,
        width / 256 % 256, width % 256, height / 16777216 % 256,
        height / 65536 % 256, height / 256 % 256, height % 256, 3, 1] 8 =
      height := by
    simp [headerWord]
    omega
  rw [hW, hH, ← hlen, hmain]

/-- Witness for `C1_roundtrip` at a concrete 2×2 image exercising the Rgb,
Run, Diff and (fresh-cache) paths. -/
theorem C1_roundtrip_witness :
    (∀ p ∈ ([⟨10, 20, 30⟩, ⟨10, 20, 30⟩, ⟨11, 18, 31⟩, ⟨200, 5, 5⟩] :
      List Pixel), p.valid) ∧
    ([⟨10, 20, 30⟩, ⟨10, 20, 30⟩, ⟨11, 18, 31⟩, ⟨200, 5, 5⟩] :
      List Pixel).length = 2 * 2 ∧
    qoi_decode (some (qoi_encode
        [⟨10, 20, 30⟩, ⟨10, 20, 30⟩, ⟨11, 18, 31⟩, ⟨200, 5, 5⟩] 2 2)) =
      DecodeResult.ok ⟨2, 2, 3, 1⟩
        [⟨10, 20, 30⟩, ⟨10, 20, 30⟩, ⟨11, 18, 31⟩, ⟨200, 5, 5⟩] :=
  ⟨by decide, by decide,
    C1_roundtrip [⟨10, 20, 30⟩, ⟨10, 20, 30⟩, ⟨11, 18, 31⟩, ⟨200, 5, 5⟩]
      2 2 (by decide) (by decide) (by decide) (by decide)⟩
